import Mathlib

/-!
Verification of `scripts/update_registry.go` (dragon-registry).

The Go program maintains a persisted catalog (`registry.json`) of blueprint
entries and reconciles it with the assets of a tagged release: it filters
`.zip` assets, resolves a per-asset manifest (with fallback derivation), and
merges each derived entry into the catalog by an upsert-by-name rule.

This file is a shallow embedding of that program.  Pure computations
(upsert, fallback derivation, URL/path construction, asset filtering,
serialization shape) are translated into Lean functions; the external
services the program calls (`os.ReadFile`, `httpGet`, `json.Unmarshal`,
`yaml.Unmarshal`) are modelled as explicit parameters so that the control
flow of the Go code around them can be stated and proved.

Go nil-able slices are modelled as `Option (List _)`: `none` is a nil slice,
`some l` a non-nil slice with elements `l`.  This distinction matters for
`Database.Blueprints` (normalized before save) and `Blueprint.Tags`
(not normalized).
-/

set_option autoImplicit false

namespace DragonRegistry

/-- Blueprint record, from the Go struct `Blueprint` (fields `Name`,
`Version`, `Repo`, `Path`, `DownloadURL`, `Description`, `Tags`).
`tags` is a Go slice `[]string`, which may be nil: `none` models nil. -/
structure Blueprint where
  name : String
  version : String
  repo : String
  path : String
  downloadURL : String
  description : String
  tags : Option (List String)
deriving Repr, DecidableEq

/-- Database record, from the Go struct `Database` with the single field
`Blueprints []Blueprint`; the slice may be nil (`none`). -/
structure Database where
  blueprints : Option (List Blueprint)
deriving Repr, DecidableEq

/-- The upsert-by-name merge from `main` (lines 168-179 of
`update_registry.go`): scan the catalog in order, replace the first entry
whose `Name` equals the new entry's `Name` and stop; if no entry matches,
append the new entry at the end.

```go
found := false
for i := range db.Blueprints {
    if db.Blueprints[i].Name == entry.Name {
        db.Blueprints[i] = entry
        found = true
        break
    }
}
if !found {
    db.Blueprints = append(db.Blueprints, entry)
}
```
-/
def upsert : List Blueprint → Blueprint → List Blueprint
  | [], e => [e]
  | b :: bs, e => if b.name = e.name then e :: bs else b :: upsert bs e

@[simp] theorem upsert_nil (e : Blueprint) : upsert [] e = [e] := rfl

theorem upsert_cons (b : Blueprint) (bs : List Blueprint) (e : Blueprint) :
    upsert (b :: bs) e = if b.name = e.name then e :: bs else b :: upsert bs e := rfl

/-- When no entry of the catalog bears the new entry's name, upsert is
exactly an append at the end. -/
theorem upsert_eq_append (C : List Blueprint) (E : Blueprint)
    (h : ∀ b ∈ C, b.name ≠ E.name) : upsert C E = C ++ [E] := by
  induction C with
  | nil => rfl
  | cons b bs ih =>
      rw [upsert_cons, if_neg (h b (List.mem_cons_self b bs))]
      rw [ih (fun b' hb' => h b' (List.mem_cons_of_mem b hb'))]
      rfl

/-- When position `i` holds the first entry bearing the new entry's name,
upsert is exactly `List.set` at `i`. -/
theorem upsert_eq_set (C : List Blueprint) (E : Blueprint) (i : Nat) (b : Blueprint)
    (hget : C[i]? = some b) (hname : b.name = E.name)
    (hfirst : ∀ j, j < i → ∀ b', C[j]? = some b' → b'.name ≠ E.name) :
    upsert C E = C.set i E := by
  induction C generalizing i with
  | nil => simp at hget
  | cons c cs ih =>
      cases i with
      | zero =>
          simp only [List.getElem?_cons_zero, Option.some.injEq] at hget
          subst hget
          rw [upsert_cons, if_pos hname]
          rfl
      | succ n =>
          have hc : c.name ≠ E.name := by
            have := hfirst 0 (Nat.succ_pos n) c
            exact this (by simp)
          rw [upsert_cons, if_neg hc]
          simp only [List.getElem?_cons_succ] at hget
          rw [ih n hget (fun j hj b' hb' =>
            hfirst (j + 1) (Nat.succ_lt_succ hj) b' (by simpa using hb'))]
          rfl

/-- Every name occurring in the upserted catalog occurs in the original
catalog or is the new entry's name. -/
theorem name_mem_upsert (C : List Blueprint) (E : Blueprint) (x : String)
    (hx : x ∈ (upsert C E).map Blueprint.name) :
    x ∈ C.map Blueprint.name ∨ x = E.name := by
  induction C with
  | nil =>
      simp only [upsert_nil, List.map_cons, List.map_nil, List.mem_singleton] at hx
      exact Or.inr hx
  | cons b bs ih =>
      rw [upsert_cons] at hx
      by_cases h : b.name = E.name
      · rw [if_pos h] at hx
        simp only [List.map_cons, List.mem_cons] at hx
        rcases hx with hx | hx
        · exact Or.inr hx
        · exact Or.inl (by simp [hx])
      · rw [if_neg h] at hx
        simp only [List.map_cons, List.mem_cons] at hx
        rcases hx with hx | hx
        · exact Or.inl (by simp [hx])
        · rcases ih hx with h' | h'
          · exact Or.inl (by simp [List.mem_cons]; exact Or.inr (by simpa using h'))
          · exact Or.inr h'

/-- C1 helper: length of an upsert that appends. -/
theorem upsert_length_absent (C : List Blueprint) (E : Blueprint)
    (h : ∀ b ∈ C, b.name ≠ E.name) : (upsert C E).length = C.length + 1 := by
  rw [upsert_eq_append C E h]; simp

/-- C1.
For every catalog `C` and entry `E` whose name is absent from `C`,
`upsert C E` appends `E` as the new last element: the result has length
`C.length + 1`, its last element is `E`, and every entry of `C` keeps its
original position and value. -/
theorem upsert_absent_appends (C : List Blueprint) (E : Blueprint)
    (h : ∀ b ∈ C, b.name ≠ E.name) :
    (upsert C E).length = C.length + 1 ∧
    (upsert C E).getLast? = some E ∧
    ∀ i, i < C.length → (upsert C E)[i]? = C[i]? := by
  rw [upsert_eq_append C E h]
  refine ⟨by simp, List.getLast?_concat C, ?_⟩
  intro i hi
  rw [List.getElem?_append, if_pos hi]

/-- C1 witness: a concrete catalog with one entry named `"a"` and a new
entry named `"b"`. -/
theorem upsert_absent_appends_witness :
    ((upsert [⟨"a", "1", "r", "p", "u", "d", none⟩]
        ⟨"b", "2", "r", "p", "u", "d", none⟩).length = 1 + 1 ∧
      (upsert [⟨"a", "1", "r", "p", "u", "d", none⟩]
        ⟨"b", "2", "r", "p", "u", "d", none⟩).getLast? =
          some ⟨"b", "2", "r", "p", "u", "d", none⟩ ∧
      ∀ i, i < ([⟨"a", "1", "r", "p", "u", "d", none⟩] :
          List Blueprint).length →
        (upsert [⟨"a", "1", "r", "p", "u", "d", none⟩]
          ⟨"b", "2", "r", "p", "u", "d", none⟩)[i]? =
        ([⟨"a", "1", "r", "p", "u", "d", none⟩] : List Blueprint)[i]?) := by
  have := upsert_absent_appends [⟨"a", "1", "r", "p", "u", "d", none⟩]
    ⟨"b", "2", "r", "p", "u", "d", none⟩ (by decide)
  simpa using this

/-- C2.
For every catalog `C` whose (unique, per the catalog invariant) entry named
`E.name` sits at position `i`, `upsert C E` has the same length, holds
exactly `E` (every field replaced) at position `i`, and leaves every other
position unchanged. -/
theorem upsert_replaces_match (C : List Blueprint) (E : Blueprint) (i : Nat)
    (b : Blueprint) (hget : C[i]? = some b) (hname : b.name = E.name)
    (huniq : ∀ j b', C[j]? = some b' → b'.name = E.name → j = i) :
    (upsert C E).length = C.length ∧
    (upsert C E)[i]? = some E ∧
    ∀ j, j ≠ i → (upsert C E)[j]? = C[j]? := by
  have hfirst : ∀ j, j < i → ∀ b', C[j]? = some b' → b'.name ≠ E.name := by
    intro j hj b' hb' hb'name
    exact absurd (huniq j b' hb' hb'name) (Nat.ne_of_lt hj)
  have hset := upsert_eq_set C E i b hget hname hfirst
  have hi : i < C.length := by
    by_contra hlt
    rw [List.getElem?_eq_none (Nat.le_of_not_lt hlt)] at hget
    exact Option.noConfusion hget
  refine ⟨by rw [hset]; simp, ?_, ?_⟩
  · rw [hset]
    simp [List.getElem?_set_self, hi]
  · intro j hj
    rw [hset]
    exact List.getElem?_set_ne (fun h => hj h.symm)

/-- C2 witness: a two-entry catalog whose entry named `"b"` at position 1
is fully replaced. -/
theorem upsert_replaces_match_witness :
    ((upsert [⟨"a", "1", "r", "p", "u", "d", none⟩,
        ⟨"b", "1", "r", "p", "u", "d", none⟩]
        ⟨"b", "2", "r2", "p2", "u2", "d2", some ["t"]⟩).length =
      ([⟨"a", "1", "r", "p", "u", "d", none⟩,
        ⟨"b", "1", "r", "p", "u", "d", none⟩] : List Blueprint).length ∧
      (upsert [⟨"a", "1", "r", "p", "u", "d", none⟩,
        ⟨"b", "1", "r", "p", "u", "d", none⟩]
        ⟨"b", "2", "r2", "p2", "u2", "d2", some ["t"]⟩)[1]? =
          some ⟨"b", "2", "r2", "p2", "u2", "d2", some ["t"]⟩ ∧
      ∀ j, j ≠ 1 →
        (upsert [⟨"a", "1", "r", "p", "u", "d", none⟩,
          ⟨"b", "1", "r", "p", "u", "d", none⟩]
          ⟨"b", "2", "r2", "p2", "u2", "d2", some ["t"]⟩)[j]? =
        ([⟨"a", "1", "r", "p", "u", "d", none⟩,
          ⟨"b", "1", "r", "p", "u", "d", none⟩] : List Blueprint)[j]?) := by
  refine upsert_replaces_match _ _ 1 ⟨"b", "1", "r", "p", "u", "d", none⟩
    (by decide) (by decide) ?_
  intro j b' hget hname
  match j with
  | 0 => simp at hget; rw [← hget] at hname; simp at hname
  | 1 => rfl
  | n + 2 => simp at hget

/-- C3.
Upsert is idempotent: applying the same entry twice produces the same
catalog as applying it once, for every catalog and entry. -/
theorem upsert_idem (C : List Blueprint) (E : Blueprint) :
    upsert (upsert C E) E = upsert C E := by
  induction C with
  | nil => simp [upsert]
  | cons b bs ih =>
      by_cases h : b.name = E.name
      · rw [upsert_cons, if_pos h, upsert_cons, if_pos rfl]
      · rw [upsert_cons, if_neg h, upsert_cons, if_neg h, ih]

/-- C4 helper: a catalog whose names are pairwise distinct has no entry
named `x` beyond the head when the head is named `x`. -/
theorem countP_name_eq_zero (bs : List Blueprint) (x : String)
    (h : ∀ b ∈ bs, b.name ≠ x) :
    bs.countP (fun b => b.name == x) = 0 := by
  rw [List.countP_eq_zero]
  intro b hb
  simpa using h b hb

/-- C4.
Name uniqueness is an invariant: if the catalog has pairwise-distinct entry
names, the upserted catalog does too, and it holds exactly one entry named
`E.name` (never a second one). -/
theorem upsert_preserves_name_nodup (C : List Blueprint) (E : Blueprint)
    (h : (C.map Blueprint.name).Nodup) :
    ((upsert C E).map Blueprint.name).Nodup ∧
    (upsert C E).countP (fun b => b.name == E.name) = 1 := by
  induction C with
  | nil =>
      refine ⟨by simp, ?_⟩
      simp [List.countP_cons]
  | cons b bs ih =>
      simp only [List.map_cons, List.nodup_cons] at h
      obtain ⟨hb, hbs⟩ := h
      by_cases hname : b.name = E.name
      · rw [upsert_cons, if_pos hname]
        constructor
        · simp only [List.map_cons, List.nodup_cons]
          exact ⟨by rw [← hname]; exact hb, hbs⟩
        · rw [List.countP_cons]
          have hzero : bs.countP (fun b' => b'.name == E.name) = 0 := by
            refine countP_name_eq_zero bs E.name (fun b' hb' hc => ?_)
            exact hb (by rw [hname, ← hc]; exact List.mem_map_of_mem Blueprint.name hb')
          simp [hzero]
      · rw [upsert_cons, if_neg hname]
        obtain ⟨ih1, ih2⟩ := ih hbs
        constructor
        · simp only [List.map_cons, List.nodup_cons]
          refine ⟨fun hmem => ?_, ih1⟩
          rcases name_mem_upsert bs E b.name hmem with h' | h'
          · exact hb h'
          · exact hname h'
        · rw [List.countP_cons]
          simp [hname, ih2]

/-- C4 witness: a concrete two-entry catalog with distinct names. -/
theorem upsert_preserves_name_nodup_witness :
    ((upsert [⟨"a", "1", "r", "p", "u", "d", none⟩,
        ⟨"b", "1", "r", "p", "u", "d", none⟩]
        ⟨"b", "2", "r", "p", "u", "d", none⟩).map Blueprint.name).Nodup ∧
    (upsert [⟨"a", "1", "r", "p", "u", "d", none⟩,
        ⟨"b", "1", "r", "p", "u", "d", none⟩]
        ⟨"b", "2", "r", "p", "u", "d", none⟩).countP
      (fun b => b.name == Blueprint.name ⟨"b", "2", "r", "p", "u", "d", none⟩) = 1 :=
  upsert_preserves_name_nodup
    [⟨"a", "1", "r", "p", "u", "d", none⟩, ⟨"b", "1", "r", "p", "u", "d", none⟩]
    ⟨"b", "2", "r", "p", "u", "d", none⟩ (by decide)

/-! ### Strings and paths

Models of the Go standard-library helpers the script uses, following their
documented contracts (`strings.HasSuffix`, `strings.TrimSuffix`,
`strings.TrimPrefix`, `path.Join`). -/

/-- Go `strings.HasSuffix s suffix`, over the string's character list. -/
def hasSuffix (s suffix : String) : Bool := suffix.data.isSuffixOf s.data

/-- Go `strings.TrimSuffix s suffix`: removes one trailing occurrence of
`suffix` when present, otherwise returns `s` unchanged. -/
def trimSuffix (s suffix : String) : String :=
  if suffix.data.isSuffixOf s.data then
    { data := s.data.take (s.data.length - suffix.data.length) }
  else s

/-- Go `strings.TrimPrefix s pre`: removes one leading occurrence of `pre`
when present, otherwise returns `s` unchanged. -/
def trimPre (s pre : String) : String :=
  if pre.data.isPrefixOf s.data then { data := s.data.drop pre.data.length }
  else s

/-- Go `path.Join`: joins the non-empty elements with a slash.  (Go also
runs `path.Clean` on the result; on the already-clean segments this script
joins — `"blueprints"`, a blueprint identifier, `"manifest.yaml"` — the
clean step is the identity, so it is omitted.) -/
def pathJoin (elems : List String) : String :=
  String.intercalate "/" (elems.filter (fun e => e ≠ ""))

/-! ### Release assets and manifests -/

/-- One release asset, from the anonymous struct inside `ghRelease`
(fields `Name`, `BrowserDownloadURL`). -/
structure Asset where
  name : String
  browserDownloadURL : String
deriving Repr, DecidableEq

/-- Manifest record, from the Go struct `bpManifest` (yaml fields `name`,
`version`, `description`, `tags`).  `tags` is a nil-able slice. -/
structure bpManifest where
  name : String
  version : String
  description : String
  tags : Option (List String)
deriving Repr, DecidableEq

/-- The Go zero value of `bpManifest`: the empty manifest (all four fields
empty; the tags slice is nil). -/
def emptyManifest : bpManifest := ⟨"", "", "", none⟩

/-- Outcome of one `httpGet` call: the body on success, or a Go error
(network failure, or a non-2xx status such as a missing document). -/
inductive FetchResult where
  | success (body : String)
  | failure (msg : String)
deriving Repr, DecidableEq

/-- Manifest resolution, from `main` lines 142-146:

```go
mb, err := httpGet(ctx, manifestURL)
var man bpManifest
if err == nil {
    _ = yaml.Unmarshal(mb, &man)
}
```

`man` starts as the zero value; it is only (possibly) filled when the fetch
succeeded, and the `yaml.Unmarshal` error is discarded.  The external
`yaml.Unmarshal` is modelled as a pure function `unmarshalYaml` returning
`none` on a parse error (leaving `man` at its zero value) and `some m`
on success. -/
def resolveManifest (fetched : FetchResult)
    (unmarshalYaml : String → Option bpManifest) : bpManifest :=
  match fetched with
  | .failure _ => emptyManifest
  | .success body =>
      match unmarshalYaml body with
      | none => emptyManifest
      | some m => m

/-- Fallback derivation, from `main` lines 147-156: each empty manifest
field is replaced by a value derived from the blueprint identifier or the
tag; `tags` has no fallback.

```go
if man.Name == "" { man.Name = name }
if man.Version == "" { man.Version = strings.TrimPrefix(tag, "v") }
if man.Description == "" { man.Description = fmt.Sprintf("%s blueprint", name) }
```
-/
def applyFallbacks (tag blueprintID : String) (man : bpManifest) : bpManifest :=
  let man1 := if man.name = "" then { man with name := blueprintID } else man
  let man2 := if man1.version = "" then { man1 with version := trimPre tag "v" } else man1
  if man2.description = "" then { man2 with description := blueprintID ++ " blueprint" } else man2

/-- The blueprint identifier of an asset, from `main` line 138:
`name := strings.TrimSuffix(a.Name, ".zip")`. -/
def blueprintID (assetName : String) : String := trimSuffix assetName ".zip"

/-- The manifest lookup URL, from `main` lines 140-141:

```go
manifestURL := fmt.Sprintf("https://raw.githubusercontent.com/%s/%s/%s/%s",
    repo, tag, path.Join("blueprints", name, "manifest.yaml"), "")
```

Note the format string has four verbs and the last argument is the empty
string, so the formatted URL ends with a slash. -/
def manifestURL (repo tag blueprintID : String) : String :=
  "https://raw.githubusercontent.com/" ++ repo ++ "/" ++ tag ++ "/" ++
    pathJoin ["blueprints", blueprintID, "manifest.yaml"] ++ "/" ++ ""

/-- Entry construction, from `main` lines 158-166. -/
def mkEntry (repo blueprintID downloadURL : String) (man : bpManifest) : Blueprint :=
  { name := man.name
    version := man.version
    repo := "github.com/" ++ repo
    path := pathJoin ["blueprints", blueprintID]
    downloadURL := downloadURL
    description := man.description
    tags := man.tags }

/-- The entry derived for one asset, from the body of the asset loop in
`main` (lines 134-166): `none` when the asset is skipped because its name
does not end in `".zip"` (the `continue`), otherwise the constructed
`Blueprint` entry. -/
def assetEntry (fetch : String → FetchResult)
    (unmarshalYaml : String → Option bpManifest)
    (repo tag : String) (a : Asset) : Option Blueprint :=
  if hasSuffix a.name ".zip" then
    let bid := blueprintID a.name
    let man := resolveManifest (fetch (manifestURL repo tag bid)) unmarshalYaml
    let man := applyFallbacks tag bid man
    some (mkEntry repo bid a.browserDownloadURL man)
  else
    none

/-- One iteration of the asset loop in `main` (lines 134-179): a skipped
asset leaves the catalog unchanged; a processed asset's entry is upserted. -/
def processAsset (fetch : String → FetchResult)
    (unmarshalYaml : String → Option bpManifest)
    (repo tag : String) (a : Asset) (db : List Blueprint) : List Blueprint :=
  match assetEntry fetch unmarshalYaml repo tag a with
  | none => db
  | some e => upsert db e

/-- The whole asset loop of `main`, folded over the release's asset list in
order. -/
def processAssets (fetch : String → FetchResult)
    (unmarshalYaml : String → Option bpManifest)
    (repo tag : String) (assets : List Asset) (db : List Blueprint) :
    List Blueprint :=
  assets.foldl (fun db a => processAsset fetch unmarshalYaml repo tag a db) db

/-- Helper: fallback derivation never touches the tags field. -/
theorem applyFallbacks_tags (tag bid : String) (man : bpManifest) :
    (applyFallbacks tag bid man).tags = man.tags := by
  unfold applyFallbacks
  by_cases h1 : man.name = "" <;> by_cases h2 : man.version = "" <;>
    by_cases h3 : man.description = "" <;> simp [h1, h2, h3]

/-- C5.
Manifest resolution never fails the run and never yields a partial result:
when the manifest fetch fails (network error or missing document) or the
fetched body does not parse, the resolved manifest is exactly the empty
manifest, the asset is still processed (its entry is derived by fallback
from the empty manifest and upserted), and the remaining assets are
processed afterwards as usual. -/
theorem manifest_failure_suppressed
    (fetch : String → FetchResult) (unmarshalYaml : String → Option bpManifest)
    (repo tag : String) (a : Asset) (rest : List Asset) (db : List Blueprint)
    (hzip : hasSuffix a.name ".zip" = true)
    (hfail : (∃ msg, fetch (manifestURL repo tag (blueprintID a.name)) =
                FetchResult.failure msg) ∨
             (∃ body, fetch (manifestURL repo tag (blueprintID a.name)) =
                FetchResult.success body ∧ unmarshalYaml body = none)) :
    resolveManifest (fetch (manifestURL repo tag (blueprintID a.name)))
        unmarshalYaml = emptyManifest ∧
    processAsset fetch unmarshalYaml repo tag a db =
      upsert db (mkEntry repo (blueprintID a.name) a.browserDownloadURL
        (applyFallbacks tag (blueprintID a.name) emptyManifest)) ∧
    processAssets fetch unmarshalYaml repo tag (a :: rest) db =
      processAssets fetch unmarshalYaml repo tag rest
        (processAsset fetch unmarshalYaml repo tag a db) := by
  have hres : resolveManifest (fetch (manifestURL repo tag (blueprintID a.name)))
      unmarshalYaml = emptyManifest := by
    rcases hfail with ⟨msg, hmsg⟩ | ⟨body, hbody, hparse⟩
    · rw [hmsg]; rfl
    · rw [hbody]; simp [resolveManifest, hparse]
  refine ⟨hres, ?_, rfl⟩
  unfold processAsset assetEntry
  rw [hzip]
  simp only [if_true, hres]

/-- C5 witness: one `.zip` asset whose manifest fetch fails with a 404;
the entry is derived entirely by fallback and appended. -/
theorem manifest_failure_suppressed_witness :
    processAsset (fun _ => FetchResult.failure "404") (fun _ => none)
      "r" "v1.2.3" ⟨"foo.zip", "U1"⟩ [] =
      [⟨"foo", "1.2.3", "github.com/r", "blueprints/foo", "U1",
        "foo blueprint", none⟩] := by
  have h := manifest_failure_suppressed (fun _ => FetchResult.failure "404")
    (fun _ => none) "r" "v1.2.3" ⟨"foo.zip", "U1"⟩ [] []
    (by decide) (Or.inl ⟨"404", rfl⟩)
  rw [h.2.1]
  decide

/-- C6.
Fallback derivation: from tag `"v1.2.3"`, blueprintID `"foo"` and the empty
manifest the derived manifest is
`{name := "foo", version := "1.2.3", description := "foo blueprint", tags := none}`
(the version is the tag with one leading `"v"` stripped); and in general
each fallback replaces a field exactly when the manifest left it empty,
with tags never touched. -/
theorem fallback_derivation :
    applyFallbacks "v1.2.3" "foo" emptyManifest =
      ⟨"foo", "1.2.3", "foo blueprint", none⟩ ∧
    ∀ (tag bid : String) (man : bpManifest),
      applyFallbacks tag bid man =
        { name := if man.name = "" then bid else man.name
          version := if man.version = "" then trimPre tag "v" else man.version
          description := if man.description = "" then bid ++ " blueprint"
            else man.description
          tags := man.tags } := by
  refine ⟨by decide, ?_⟩
  intro tag bid man
  unfold applyFallbacks
  by_cases h1 : man.name = "" <;> by_cases h2 : man.version = "" <;>
    by_cases h3 : man.description = "" <;> simp [h1, h2, h3]

/-- C7.
Asset filtering: an entry is derived exactly for the assets whose name ends
in `".zip"`; any other asset is skipped (no entry, catalog unchanged, no
error); a processed asset's blueprint identifier is its name with the
trailing `".zip"` removed, so `"foo.tar"` is skipped and `"foo.zip"` yields
blueprintID `"foo"`. -/
theorem asset_filtering (fetch : String → FetchResult)
    (unmarshalYaml : String → Option bpManifest)
    (repo tag : String) (a : Asset) (db : List Blueprint) :
    ((assetEntry fetch unmarshalYaml repo tag a).isSome =
      hasSuffix a.name ".zip") ∧
    (hasSuffix a.name ".zip" = false →
      processAsset fetch unmarshalYaml repo tag a db = db) ∧
    (hasSuffix a.name ".zip" = true →
      assetEntry fetch unmarshalYaml repo tag a =
        some (mkEntry repo (blueprintID a.name) a.browserDownloadURL
          (applyFallbacks tag (blueprintID a.name)
            (resolveManifest (fetch (manifestURL repo tag (blueprintID a.name)))
              unmarshalYaml)))) ∧
    blueprintID "foo.zip" = "foo" ∧
    hasSuffix "foo.tar" ".zip" = false := by
  refine ⟨?_, ?_, ?_, by decide, by decide⟩
  · cases h : hasSuffix a.name ".zip" <;> simp [assetEntry, h]
  · intro h
    simp [processAsset, assetEntry, h]
  · intro h
    simp [assetEntry, h]

/-- C7 witness: a `.tar` asset leaves a concrete catalog unchanged, and
`"foo.zip"` yields blueprintID `"foo"`. -/
theorem asset_filtering_witness :
    processAsset (fun _ => FetchResult.failure "404") (fun _ => none)
      "r" "v1.2.3" ⟨"foo.tar", "U1"⟩ [] = [] ∧
    blueprintID "foo.zip" = "foo" := by
  have h := asset_filtering (fun _ => FetchResult.failure "404") (fun _ => none)
    "r" "v1.2.3" ⟨"foo.tar", "U1"⟩ []
  exact ⟨h.2.1 (by decide), h.2.2.2.1⟩

/-- C8 (falsified by the code).
The manifest URL built by `main` lines 140-141 formats four segments, the
last being the empty string, so the URL carries a trailing slash: for repo
`"getDragon-dev/dragon-blueprints"`, tag `"v1.2.3"` and blueprintID
`"foo"` the repository-relative part is `"blueprints/foo/manifest.yaml/"`,
not the claimed `"blueprints/foo/manifest.yaml"`. -/
theorem manifestURL_trailing_slash :
    manifestURL "getDragon-dev/dragon-blueprints" "v1.2.3" "foo" =
      "https://raw.githubusercontent.com/getDragon-dev/dragon-blueprints/v1.2.3/blueprints/foo/manifest.yaml/" ∧
    manifestURL "getDragon-dev/dragon-blueprints" "v1.2.3" "foo" ≠
      "https://raw.githubusercontent.com/getDragon-dev/dragon-blueprints/v1.2.3/blueprints/foo/manifest.yaml" := by
  decide

/-! ### Catalog store -/

/-- Outcome of the `os.ReadFile` call in `loadDB`: the file does not exist,
some other read error occurred, or the file's content was read. -/
inductive ReadResult where
  | notExist
  | readFailure (msg : String)
  | content (bytes : String)
deriving Repr, DecidableEq

/-- Catalog load, from `loadDB` (lines 42-59):

```go
b, err := os.ReadFile(p)
if err != nil {
    if errors.Is(err, os.ErrNotExist) {
        return Database{Blueprints: []Blueprint{}}, nil
    }
    return db, err
}
if err := json.Unmarshal(b, &db); err != nil {
    return db, err
}
if db.Blueprints == nil {
    db.Blueprints = []Blueprint{}
}
return db, nil
```

The external `json.Unmarshal` is modelled as a pure function
`unmarshalJson` returning the decoded database or the decode error. -/
def loadDB (readFile : ReadResult)
    (unmarshalJson : String → Except String Database) : Except String Database :=
  match readFile with
  | .notExist => Except.ok ⟨some []⟩
  | .readFailure msg => Except.error msg
  | .content bytes =>
      match unmarshalJson bytes with
      | .error e => Except.error e
      | .ok db =>
          match db.blueprints with
          | none => Except.ok ⟨some []⟩
          | some bs => Except.ok ⟨some bs⟩

/-- C9.
Catalog load contract: a nonexistent file yields the empty catalog and no
error; existing but malformed content yields exactly the decode error (no
catalog); well-formed content yields the decoded catalog with the entry
collection never nil (a nil `blueprints` is normalized to the empty
list). -/
theorem loadDB_contract (unmarshalJson : String → Except String Database)
    (bytes : String) :
    loadDB ReadResult.notExist unmarshalJson = Except.ok ⟨some []⟩ ∧
    (∀ e, unmarshalJson bytes = Except.error e →
      loadDB (ReadResult.content bytes) unmarshalJson = Except.error e) ∧
    (∀ db, unmarshalJson bytes = Except.ok db →
      loadDB (ReadResult.content bytes) unmarshalJson =
        Except.ok ⟨some (db.blueprints.getD [])⟩) := by
  refine ⟨rfl, ?_, ?_⟩
  · intro e he
    simp [loadDB, he]
  · intro db hdb
    cases h : db.blueprints <;> simp [loadDB, hdb, h]

/-- C9 witness: a decoder that fails on `"bad"` and decodes `"good"` to a
database with a nil entry slice. -/
theorem loadDB_contract_witness :
    loadDB ReadResult.notExist
      (fun s => if s = "good" then Except.ok ⟨none⟩ else Except.error "decode") =
      Except.ok ⟨some []⟩ ∧
    loadDB (ReadResult.content "bad")
      (fun s => if s = "good" then Except.ok ⟨none⟩ else Except.error "decode") =
      Except.error "decode" ∧
    loadDB (ReadResult.content "good")
      (fun s => if s = "good" then Except.ok ⟨none⟩ else Except.error "decode") =
      Except.ok ⟨some []⟩ := by
  refine ⟨(loadDB_contract
      (fun s => if s = "good" then Except.ok ⟨none⟩ else Except.error "decode")
      "bad").1,
    (loadDB_contract
      (fun s => if s = "good" then Except.ok ⟨none⟩ else Except.error "decode")
      "bad").2.1 "decode" (by rw [if_neg (by decide)]), ?_⟩
  have h := (loadDB_contract
      (fun s => if s = "good" then Except.ok ⟨none⟩ else Except.error "decode")
      "good").2.2 ⟨none⟩ (by rw [if_pos (by decide)])
  simpa using h

/-! ### Serialization shape -/

/-- Shape of a JSON value, used to state what `json.MarshalIndent` renders
in `saveDB`: Go marshals a nil slice as `null` and a non-nil slice as an
array. -/
inductive Jval where
  | null
  | str (s : String)
  | arr (elems : List Jval)
  | obj (fields : List (String × Jval))

/-- The JSON object marshalled for one `Blueprint`, with the field names
and order of the struct tags in the Go source; a nil `tags` slice renders
as `null`. -/
def blueprintJson (b : Blueprint) : Jval :=
  Jval.obj [("name", Jval.str b.name), ("version", Jval.str b.version),
    ("repo", Jval.str b.repo), ("path", Jval.str b.path),
    ("download_url", Jval.str b.downloadURL),
    ("description", Jval.str b.description),
    ("tags", match b.tags with
      | none => Jval.null
      | some ts => Jval.arr (ts.map Jval.str))]

/-- Catalog save, from `saveDB` (lines 61-69): a nil top-level slice is
normalized to the empty slice, then the database is marshalled.

```go
if db.Blueprints == nil {
    db.Blueprints = []Blueprint{}
}
b, err := json.MarshalIndent(db, "", "  ")
```
-/
def saveDB (db : Database) : Jval :=
  Jval.obj [("blueprints", Jval.arr ((db.blueprints.getD []).map blueprintJson))]

/-- Field lookup inside a marshalled JSON object. -/
def jsonField (j : Jval) (k : String) : Option Jval :=
  match j with
  | Jval.obj fields => fields.lookup k
  | _ => none

/-- C10.
Tags are taken verbatim from the manifest with no normalization: an asset
whose resolved manifest carries a nil tags slice yields an entry with a nil
tags slice, such an entry is marshalled with `"tags": null`, and only the
top-level blueprints collection — not per-entry tags — is normalized to an
explicit empty list by `saveDB`. -/
theorem tags_passthrough (fetch : String → FetchResult)
    (unmarshalYaml : String → Option bpManifest)
    (repo tag : String) (a : Asset) (e : Blueprint)
    (he : assetEntry fetch unmarshalYaml repo tag a = some e)
    (htags : (resolveManifest (fetch (manifestURL repo tag (blueprintID a.name)))
      unmarshalYaml).tags = none) :
    e.tags = none ∧
    jsonField (blueprintJson e) "tags" = some Jval.null ∧
    saveDB ⟨none⟩ = Jval.obj [("blueprints", Jval.arr [])] ∧
    ∀ bs : List Blueprint, saveDB ⟨some bs⟩ =
      Jval.obj [("blueprints", Jval.arr (bs.map blueprintJson))] := by
  have hnone : e.tags = none := by
    unfold assetEntry at he
    by_cases h : hasSuffix a.name ".zip"
    · rw [h] at he
      simp only [if_true, Option.some.injEq] at he
      rw [← he]
      show (mkEntry repo (blueprintID a.name) a.browserDownloadURL
        (applyFallbacks tag (blueprintID a.name)
          (resolveManifest (fetch (manifestURL repo tag (blueprintID a.name)))
            unmarshalYaml))).tags = none
      rw [show ∀ m, (mkEntry repo (blueprintID a.name) a.browserDownloadURL m).tags
            = m.tags from fun _ => rfl]
      rw [applyFallbacks_tags]
      exact htags
    · simp only [h] at he
      simp at he
  refine ⟨hnone, ?_, rfl, fun bs => rfl⟩
  unfold blueprintJson jsonField
  rw [hnone]
  rfl

/-- C10 witness: a `.zip` asset resolved against a failing manifest fetch
yields an entry with a nil tags slice that marshals as `"tags": null`. -/
theorem tags_passthrough_witness :
    Blueprint.tags ⟨"foo", "1.2.3", "github.com/r", "blueprints/foo", "U1",
      "foo blueprint", none⟩ = none ∧
    jsonField (blueprintJson ⟨"foo", "1.2.3", "github.com/r", "blueprints/foo",
      "U1", "foo blueprint", none⟩) "tags" = some Jval.null ∧
    saveDB ⟨none⟩ = Jval.obj [("blueprints", Jval.arr [])] ∧
    ∀ bs : List Blueprint, saveDB ⟨some bs⟩ =
      Jval.obj [("blueprints", Jval.arr (bs.map blueprintJson))] :=
  tags_passthrough (fun _ => FetchResult.failure "404") (fun _ => none)
    "r" "v1.2.3" ⟨"foo.zip", "U1"⟩
    ⟨"foo", "1.2.3", "github.com/r", "blueprints/foo", "U1", "foo blueprint", none⟩
    (by decide) (by decide)

end DragonRegistry
